import Mathlib

set_option linter.unusedVariables false

/-!
Shallow embedding of the goqs decoder (decoder.go) in Lean 4.

Go strings are modelled as `List Char` (one `Char` per byte; all inputs of
interest are ASCII).  The dynamically typed `interface{}` values that flow
through the decoder are modelled by the closed sum `QSVal`; the Go type
`QSType = map[interface{}]interface{}` is modelled by an insertion-ordered
association list from `QSKey` to `QSVal`.  `QSKey` covers exactly the
comparable values the decoder ever uses as map keys: strings (named
segments), Go `int`s (array indices) and booleans; using a slice, map or
`nil` as a map key would panic in Go and never happens in this code.  Go
map iteration order is unspecified, which is made explicit where it
matters (see `ParseOrd`).

A Go runtime panic (out-of-range index, failed type assertion,
`reflect.TypeOf(nil).Kind()`) is modelled by `Option.none`.

Recursive functions whose termination is not structural carry an explicit
fuel argument on which they recurse structurally, so that every
definition evaluates inside the kernel; the fuel passed by the public
wrappers (`sizeOf` the shrinking argument, or the string length) always
dominates the recursion depth, so the fuel-exhaustion branches are
unreachable from the wrappers.
-/

namespace Goqs

/-- The map-key values used by the decoder: named segments, `int` array
indices, and the booleans a scalar-into-map merge can insert. -/
inductive QSKey where
  | str : List Char → QSKey
  | int : Int → QSKey
  | bool : Bool → QSKey
deriving DecidableEq

/-- Model of the dynamic `interface{}` values used by the decoder:
strings, booleans, `nil`, `[]interface{}` slices and `QSType` maps. -/
inductive QSVal where
  | str : List Char → QSVal
  | bool : Bool → QSVal
  | null : QSVal
  | arr : List QSVal → QSVal
  | obj : List (QSKey × QSVal) → QSVal

/-- Go `v == nil` on an `interface{}` value. -/
def isNull : QSVal → Bool
  | .null => true
  | _ => false

/-- Abbreviation for a string-valued `QSVal` built from a literal. -/
def qstr (s : String) : QSVal := .str s.data

/-- Abbreviation for a string map key built from a literal. -/
def kstr (s : String) : QSKey := .str s.data

/-- Abbreviation for an integer map key. -/
def kint (n : Int) : QSKey := .int n

/-- Go map read `m[k]`: value of the first (unique) binding of `k`. -/
def assocGet {α β : Type} [DecidableEq α] : List (α × β) → α → Option β
  | [], _ => none
  | (k1, v1) :: rest, k => if k1 = k then some v1 else assocGet rest k

/-- Go map write `m[k] = v`: replace the binding in place, else append. -/
def assocSet {α β : Type} [DecidableEq α] : List (α × β) → α → β → List (α × β)
  | [], k, v => [(k, v)]
  | (k1, v1) :: rest, k, v =>
      if k1 = k then (k1, v) :: rest else (k1, v1) :: assocSet rest k v

/-- Does `s` start with the pattern `p`? -/
def startsWithL : List Char → List Char → Bool
  | _, [] => true
  | [], _ :: _ => false
  | c :: s, p :: ps => c = p && startsWithL s ps

/-- Go `strings.Index(s, pat)`: byte index of the first occurrence of `pat`
in `s` (`none` models the return value `-1`). -/
def indexOf (s pat : List Char) : Option Nat :=
  if startsWithL s pat then some 0
  else
    match s with
    | [] => none
    | _ :: rest => (indexOf rest pat).map (· + 1)

/-- Go `strings.Contains(s, pat)`. -/
def containsSub (s pat : List Char) : Bool := (indexOf s pat).isSome

/-- The `before` component of Go `strings.Cut(s, sep)` (the decoder drops
the other two return values). -/
def cutBefore (s sep : List Char) : List Char :=
  match indexOf s sep with
  | some i => s.take i
  | none => s

/-- Go `strings.explode`: split into up to `n` single-character pieces, the
last piece taking the remainder (used by `Split` with an empty separator). -/
def explode : List Char → Nat → List (List Char)
  | _, 0 => []
  | s, 1 => [s]
  | [], _ + 2 => []
  | c :: rest, n + 2 => [c] :: explode rest (n + 1)

/-- Split `s` at occurrences of the non-empty separator `sep` into at most
`fuel` pieces; the last piece is the unsplit remainder. -/
def splitSeq (s sep : List Char) (fuel : Nat) : List (List Char) :=
  match fuel, s with
  | 0, _ => []
  | 1, s => [s]
  | fuel + 2, s =>
      match indexOf s sep with
      | none => [s]
      | some i => s.take i :: splitSeq (s.drop (i + sep.length)) sep (fuel + 1)
termination_by structural fuel

/-- Go `strings.SplitN(s, sep, n)`: `n = 0` yields no pieces, `n < 0` yields
all pieces, otherwise at most `n` pieces with the remainder left unsplit.
(A non-empty separator consumes at least one character per piece, so
`s.length + 1` pieces of fuel are never exhausted in the `n < 0` case.) -/
def splitN (s sep : List Char) (n : Int) : List (List Char) :=
  if n = 0 then []
  else if sep = [] then explode s (if n < 0 then s.length else n.toNat)
  else splitSeq s sep (if n < 0 then s.length + 1 else n.toNat)

/-- The loop of `strings.ReplaceAll` for a non-empty pattern `old`; each
step consumes at least one character, so `fuel = s.length` suffices. -/
def replaceAllGo (old new : List Char) (fuel : Nat) (s : List Char) : List Char :=
  match fuel, s with
  | 0, s => s
  | _ + 1, [] => []
  | fuel + 1, c :: rest =>
      if startsWithL (c :: rest) old then
        new ++ replaceAllGo old new fuel ((c :: rest).drop old.length)
      else c :: replaceAllGo old new fuel rest
termination_by structural fuel

/-- Go `strings.ReplaceAll(s, old, new)` for a non-empty `old` pattern (the
decoder only ever replaces `"+"` and `"%2E"`). -/
def replaceAll (s old new : List Char) : List Char :=
  if old = [] then s else replaceAllGo old new s.length s

/-- Numeric value of a hexadecimal digit, as in Go `net/url`. -/
def hexVal (c : Char) : Option Nat :=
  if '0' ≤ c ∧ c ≤ '9' then some (c.toNat - '0'.toNat)
  else if 'a' ≤ c ∧ c ≤ 'f' then some (c.toNat - 'a'.toNat + 10)
  else if 'A' ≤ c ∧ c ≤ 'F' then some (c.toNat - 'A'.toNat + 10)
  else none

/-- Go `url.QueryUnescape`: decode `%XX` escapes (each escape yields one
byte) and turn `+` into a space; a malformed escape is an error (`none`). -/
def queryUnescape : List Char → Option (List Char)
  | [] => some []
  | '%' :: rest =>
      match rest with
      | a :: b :: rest2 =>
          match hexVal a, hexVal b with
          | some ha, some hb => (queryUnescape rest2).map (Char.ofNat (ha * 16 + hb) :: ·)
          | _, _ => none
      | _ => none
  | '+' :: rest => (queryUnescape rest).map (' ' :: ·)
  | c :: rest => (queryUnescape rest).map (c :: ·)

/-- `decodeURI` from decoder.go: replace every `+` by a space, then
percent-decode; on a decode error the (plus-replaced) input is returned
unchanged. -/
def decodeURI (v : List Char) : List Char :=
  let v2 := replaceAll v ['+'] [' ']
  match queryUnescape v2 with
  | some ret => ret
  | none => v2

/-- Value of a non-empty all-digit string. -/
def digitsVal (s : List Char) : Option Nat :=
  match s with
  | [] => none
  | _ => go s 0
where
  go : List Char → Nat → Option Nat
    | [], acc => some acc
    | c :: rest, acc =>
        if '0' ≤ c ∧ c ≤ '9' then go rest (acc * 10 + (c.toNat - '0'.toNat)) else none

/-- Go `strconv.Atoi` on a 64-bit platform: an optional sign followed by
digits, erroring on anything else or on 64-bit overflow. -/
def atoi (s : List Char) : Option Int :=
  let core : Option Int :=
    match s with
    | '+' :: rest => (digitsVal rest).map Int.ofNat
    | '-' :: rest => (digitsVal rest).map (fun n => -(Int.ofNat n))
    | _ => (digitsVal s).map Int.ofNat
  core.bind fun v => if v < -(2 ^ 63) ∨ 2 ^ 63 ≤ v then none else some v

/-- The `Decoder` option struct from decoder.go.  The fields marked
"not read" are declared by the source but never consulted by `Parse`. -/
structure Decoder where
  tagAlias : List Char                 -- not read by Parse
  allowDots : Bool
  allowEmptyArrays : Bool
  allowPrototypes : Bool               -- not read by Parse
  allowSparse : Bool                   -- not read by Parse
  arrayLimit : Int
  charset : List Char                  -- not read by Parse
  charsetSentinel : Bool               -- not read by Parse
  comma : Bool
  decodeDotInKeys : Bool
  delimiter : List Char
  depth : Int
  duplicates : List Char
  ignoreQueryPrefix : Bool
  interpretNumericEntities : Bool      -- not read by Parse
  parameterLimit : Int
  parseArrays : Bool
  plainObjects : Bool                  -- not read by Parse
  strictNullHandling : Bool

/-- `defaultDecoder` from decoder.go. -/
def defaultDecoder : Decoder where
  tagAlias := "qs".data
  allowDots := false
  allowEmptyArrays := false
  allowPrototypes := false
  allowSparse := false
  arrayLimit := 20
  charset := "utf-8".data
  charsetSentinel := false
  comma := false
  decodeDotInKeys := false
  delimiter := "&".data
  depth := 5
  duplicates := "combine".data
  ignoreQueryPrefix := false
  interpretNumericEntities := false
  parameterLimit := 1000
  parseArrays := true
  plainObjects := false
  strictNullHandling := false

/-- `NewDecoder(WithComma(true))`: the default options with comma mode on. -/
def commaDecoder : Decoder := { defaultDecoder with comma := true }

/-- The default options with the duplicates policy set to `"first"`. -/
def firstDecoder : Decoder := { defaultDecoder with duplicates := "first".data }

/-- The default options with `parseArrays` disabled. -/
def noArraysDecoder : Decoder := { defaultDecoder with parseArrays := false }

/-- `IsArrayLike` from decoder.go: true exactly for slice values.
`reflect.TypeOf(nil).Kind()` panics, so a `nil` argument is `none`. -/
def isArrayLike : QSVal → Option Bool
  | .null => none
  | .arr _ => some true
  | _ => some false

/-- `combineValue` from decoder.go: join two duplicate-key values into one
slice, flattening slice arguments. -/
def combineValue (v1 v2 : QSVal) : Option QSVal := do
  let isArr1 ← isArrayLike v1
  let isArr2 ← isArrayLike v2
  if isArr1 then
    match v1 with
    | .arr a1 =>
        if isArr2 then
          match v2 with
          | .arr a2 => some (.arr (a1 ++ a2))
          | _ => none
        else some (.arr (a1 ++ [v2]))
    | _ => none
  else
    if isArr2 then
      match v2 with
      | .arr a2 => some (.arr (v1 :: a2))
      | _ => none
    else some (.arr [v1, v2])

/-- The body of the `parseValues` loop for one fragment: locate the
key/value split point (preferring `"]="`), URI-decode both sides,
comma-split the decoded value when enabled, and wrap a slice value of a
`key[]=` fragment one extra level. -/
def partKV (d : Decoder) (part : List Char) : Option (List Char × QSVal) := do
  let pos : Option Nat :=
    match indexOf part (']' :: ['=']) with
    | some bracketEqualsPos => some (bracketEqualsPos + 1)
    | none => indexOf part ['=']
  let (key, val) :=
    match pos with
    | none =>
        (decodeURI part, if d.strictNullHandling then QSVal.null else QSVal.str [])
    | some p =>
        let strv := decodeURI (part.drop (p + 1))
        let v : QSVal :=
          if d.comma ∧ containsSub strv [','] then
            .arr ((splitN strv [','] (-1)).map QSVal.str)
          else .str strv
        (decodeURI (part.take p), v)
  if containsSub part ('[' :: ']' :: ['=']) then
    match (← isArrayLike val) with
    | true => some (key, .arr [val])
    | false => some (key, val)
  else some (key, val)

/-- The fragment list fed to the `parseValues` loop: strip a leading `?`
when `ignoreQueryPrefix` is on (indexing panics on an empty string), split
on the delimiter capped at `parameterLimit`, and cut the final fragment at
the next delimiter when the cap was reached (indexing at
`parameterLimit-1` panics when the limit is zero). -/
def getParts (d : Decoder) (str : List Char) : Option (List (List Char)) := do
  let str ←
    if d.ignoreQueryPrefix then
      match str with
      | [] => none
      | c :: rest => some (if c = '?' then rest else str)
    else some str
  let parts := splitN str d.delimiter d.parameterLimit
  if (parts.length : Int) = d.parameterLimit then
    match parts with
    | [] => none
    | _ :: _ =>
        some (parts.dropLast ++ [cutBefore (parts.getLastD []) d.delimiter])
  else some parts

/-- The duplicate-key handling of `parseValues` for one fragment's
key/value: combine with an existing value only under the `"combine"`
policy, otherwise overwrite. -/
def pvStep (d : Decoder) (result : List (List Char × QSVal)) (key : List Char)
    (val : QSVal) : Option (List (List Char × QSVal)) :=
  match assocGet result key with
  | some ev =>
      if d.duplicates = "combine".data then
        (combineValue ev val).map (assocSet result key)
      else some (assocSet result key val)
  | none => some (assocSet result key val)

/-- The accumulation loop of `parseValues`: store each fragment's value
under its key via `pvStep`. -/
def pvLoop (d : Decoder) : List (List Char) → List (List Char × QSVal) →
    Option (List (List Char × QSVal))
  | [], result => some result
  | part :: rest, result => do
      let (key, val) ← partKV d part
      let result ← pvStep d result key val
      pvLoop d rest result

/-- `parseValues` from decoder.go: the flat map from raw key strings to
values, as an insertion-ordered association list. -/
def parseValues (d : Decoder) (str : List Char) : Option (List (List Char × QSVal)) := do
  let parts ← getParts d str
  pvLoop d parts []

/-- The rewrite of `dotReg.ReplaceAllString(key, "[$1]")` where `dotReg`
matches a dot followed by one or more characters that are neither a dot
nor an opening bracket: every leftmost such group `.seg` becomes `[seg]`.
Each step consumes at least one character, so `fuel = s.length` (supplied
by `dotToBracket`) suffices. -/
def dotToBracketGo (fuel : Nat) (s : List Char) : List Char :=
  match fuel, s with
  | 0, s => s
  | _ + 1, [] => []
  | fuel + 1, c :: rest =>
      if c = '.' then
        let seg := rest.takeWhile fun x => x ≠ '.' ∧ x ≠ '['
        if seg.isEmpty then '.' :: dotToBracketGo fuel rest
        else ('[' :: (seg ++ [']'])) ++ dotToBracketGo fuel (rest.drop seg.length)
      else c :: dotToBracketGo fuel rest
termination_by structural fuel

/-- Dot-to-bracket rewriting of a whole key (`a.b.c` to `a[b][c]`). -/
def dotToBracket (s : List Char) : List Char := dotToBracketGo s.length s

/-- The leftmost match of `bracketReg` (`\[[^\[\]]*]`): an opening bracket,
a run of non-bracket characters, and a closing bracket.  Returns the text
before the match, the match itself, and the rest of the string. -/
def findBracket : List Char → Option (List Char × List Char × List Char)
  | [] => none
  | c :: rest =>
      if c = '[' then
        let run := rest.takeWhile fun x => x ≠ '[' ∧ x ≠ ']'
        match rest.drop run.length with
        | ']' :: rest2 => some ([], '[' :: (run ++ [']']), rest2)
        | _ => (findBracket rest).map fun p => (c :: p.1, p.2.1, p.2.2)
      else (findBracket rest).map fun p => (c :: p.1, p.2.1, p.2.2)

/-- `bracketReg.FindAllStringIndex(s, n)` for `n ≥ 1`: the first `n`
non-overlapping matches, together with the suffix of `s` that follows the
end of the last match. -/
def bracketTake (s : List Char) : Nat → List (List Char) × List Char
  | 0 => ([], s)
  | n + 1 =>
      match findBracket s with
      | none => ([], s)
      | some (_, seg, rest) =>
          let (segs, suffix) := bracketTake rest n
          (seg :: segs, suffix)

/-- The segment list built by `parseKeys` from one flat key: a head (the
text before the first bracket group), up to `depth` bracket groups, and —
when more than one character of the key remains unconsumed — that
remainder wrapped in one literal bracket segment. -/
def computeKeys (d : Decoder) (key : List Char) : List (List Char) :=
  if d.depth > 0 then
    match findBracket key with
    | none => [key]
    | some (head, _, _) =>
        let (segs, suffix) := bracketTake key d.depth.toNat
        let keys := head :: segs
        -- Go tests `lastLoc[1] < len(key)-1` where `lastLoc[1]` is
        -- `key.length - suffix.length`.
        if key.length - suffix.length < key.length - 1 then
          keys ++ [('[' :: suffix) ++ [']']]
        else keys
  else [key]

/-- `concat` from decoder.go with one source: append the source's elements
when it is a slice, else append the source itself; `IsArrayLike` panics on
a `nil` source. -/
def concatQ (target : List QSVal) (s : QSVal) : Option (List QSVal) :=
  match s with
  | .null => none
  | .arr l => some (target ++ l)
  | _ => some (target ++ [s])

/-- One iteration of the bottom-up wrapping loop of `parseKeys`: wrap the
current leaf in a one-entry structure for the segment `root`.  Indexing
`root[0]` panics when the segment is empty. -/
def wrapSeg (d : Decoder) (root : List Char) (leaf : QSVal) : Option QSVal :=
  if root = ('[' :: [']']) ∧ d.parseArrays then
    if d.allowEmptyArrays ∧ isNull leaf then some (.arr [])
    else (concatQ [] leaf).map QSVal.arr
  else
    match root with
    | [] => none
    | c :: rest =>
        let cleanRoot :=
          if c = '[' ∧ root.getLast? = some ']' then (root.drop 1).dropLast else root
        let decodedRoot :=
          if d.decodeDotInKeys then replaceAll cleanRoot ('%' :: '2' :: ['E']) ['.']
          else cleanRoot
        if ¬d.parseArrays ∧ decodedRoot = [] then
          some (.obj [(.str ['0'], leaf)])
        else
          match atoi decodedRoot with
          | some index =>
              if root ≠ decodedRoot ∧ 0 ≤ index ∧ (d.parseArrays ∧ index ≤ d.arrayLimit) then
                some (.obj [(.int index, leaf)])
              else some (.obj [(.str decodedRoot, leaf)])
          | none => some (.obj [(.str decodedRoot, leaf)])

/-- The whole bottom-up wrapping loop of `parseKeys`, from the last
segment towards the root. -/
def wrapAll (d : Decoder) : List (List Char) → QSVal → Option QSVal
  | [], leaf => some leaf
  | k :: rest, leaf => do
      let inner ← wrapAll d rest leaf
      wrapSeg d k inner

/-- `parseKeys` from decoder.go: optional dot-to-bracket rewriting,
segmentation, bottom-up wrapping, and the final `leaf.(QSType)` type
assertion (which panics when the result is not a map). -/
def parseKeys (d : Decoder) (key : List Char) (val : QSVal) : Option QSVal := do
  let leaf ← wrapAll d (computeKeys d (if d.allowDots then dotToBracket key else key)) val
  match leaf with
  | .obj m => some (.obj m)
  | _ => none

/-- `arrayToObj` from decoder.go: a map with the slice's positional `int`
indices as keys. -/
def arrayToObj (arr : List QSVal) : List (QSKey × QSVal) :=
  arr.enum.map fun p => (QSKey.int (Int.ofNat p.1), p.2)

/-- The non-recursive scalar-addition case of `merge`: the Go branch for
`sk != reflect.Map && sk != reflect.Slice` with a non-`nil` source.  `s`
is the scalar source value and `k` the same value in its role as a map
key (`tMap[source] = true` in the Go source). -/
def mergeScalar (s : QSVal) (k : QSKey) (target : QSVal) : Option QSVal :=
  match target with
  | .null => none
  | .arr ts => some (.arr (ts ++ [s]))
  | .obj tm =>
      some (.obj (if (assocGet tm k).isSome then tm else tm ++ [(k, .bool true)]))
  | t => some (.arr [t, s])

mutual

/-- `merge` from decoder.go.  A `nil` addition is a no-op; a `nil`
accumulator panics (`reflect.TypeOf(nil).Kind()`).  A scalar (string or
boolean) addition is appended to a slice, inserted as a key mapped to
`true` into a map, or paired with a scalar accumulator into a two-element
slice.  Collection additions merge elementwise/keywise, converting a
slice accumulator to an `int`-keyed map when the kinds disagree.  The
recursion descends structurally into the addition. -/
def merge (target source : QSVal) : Option QSVal :=
  match source with
  | .null => some target
  | .arr ss =>
      match target with
      | .null => none
      | .arr ts => (mergeList ts ss).map QSVal.arr
      | .obj tm => (mergeMapArr tm ss 0).map QSVal.obj
      | t => some (.arr (t :: ss))
  | .obj sm =>
      match target with
      | .null => none
      | .arr ts => (mergeMapObj (arrayToObj ts) sm).map QSVal.obj
      | .obj tm => (mergeMapObj tm sm).map QSVal.obj
      | t => some (.arr [t, .obj sm])
  | .str x => mergeScalar (.str x) (.str x) target
  | .bool b => mergeScalar (.bool b) (.bool b) target
termination_by structural source

/-- The slice × slice case of `merge`: recursive merge at matching
positions, extra addition elements appended. -/
def mergeList : List QSVal → List QSVal → Option (List QSVal)
  | ts, [] => some ts
  | [], ss => some ss
  | t :: ts, s :: ss => do
      let h ← merge t s
      let r ← mergeList ts ss
      some (h :: r)
termination_by structural ts ss => ss

/-- The map × slice case of `merge`: fold the slice in by positional `int`
key, merging with an existing entry. -/
def mergeMapArr (tm : List (QSKey × QSVal)) (ss : List QSVal) (i : Int) :
    Option (List (QSKey × QSVal)) :=
  match ss with
  | [] => some tm
  | s :: rest => do
      let tm2 ←
        match assocGet tm (.int i) with
        | some tv => (merge tv s).map (assocSet tm (.int i))
        | none => some (assocSet tm (.int i) s)
      mergeMapArr tm2 rest (i + 1)
termination_by structural ss

/-- The map × map case of `merge`: fold the addition's entries in, merging
with an existing entry of the same key. -/
def mergeMapObj (tm : List (QSKey × QSVal)) (sm : List (QSKey × QSVal)) :
    Option (List (QSKey × QSVal)) :=
  match sm with
  | [] => some tm
  | (k, v) :: rest => do
      let tm2 ←
        match assocGet tm k with
        | some tv => (merge tv v).map (assocSet tm k)
        | none => some (assocSet tm k v)
      mergeMapObj tm2 rest
termination_by structural sm

end

/-- `canBeArray` from decoder.go: every `int` key `0 .. len-1` is present
(hence, since Go map keys are unique, the key set is exactly those). -/
def canBeArray (m : List (QSKey × QSVal)) : Bool :=
  (List.range m.length).all fun i => (assocGet m (.int (Int.ofNat i))).isSome

/-- `objToArray` from decoder.go: rewrite a map whose keys are exactly the
contiguous `int` indices into a slice ordered by index; every other value
is returned unchanged.  It does not recurse into sub-values. -/
def objToArray (v : QSVal) : QSVal :=
  match v with
  | .obj m =>
      if canBeArray m then
        .arr ((List.range m.length).map fun i => (assocGet m (.int (Int.ofNat i))).getD .null)
      else .obj m
  | _ => v

/-- The fold of `Parse`: parse each flat key into a single-path value and
merge it into the accumulator. -/
def foldMerge (d : Decoder) : List (List Char × QSVal) → QSVal → Option QSVal
  | [], t => some t
  | (k, v) :: rest, t => do
      let newObj ← parseKeys d k v
      let t2 ← merge t newObj
      foldMerge d rest t2

/-- The tail of `Parse` after `parseValues`: fold all parsed key-paths
into the (initially empty) root map and apply `objToArray` to each of the
root map's direct values.  (The accumulator always stays the root map:
`merge` on a map target returns that same, in-place-updated map, so the
final loop over `obj` in the source sees the merged result; the non-map
fallthrough is unreachable.) -/
def parseCore (d : Decoder) (temp : List (List Char × QSVal)) : Option QSVal := do
  let t ← foldMerge d temp (.obj [])
  match t with
  | .obj m => some (.obj (m.map fun p => (p.1, objToArray p.2)))
  | _ => none

/-- `Parse` from decoder.go, folding the flat key/value pairs in their
insertion order.  `none` models a runtime panic. -/
def Parse (d : Decoder) (input : List Char) : Option QSVal :=
  if input.length = 0 then some (.obj [])
  else do
    let temp ← parseValues d input
    parseCore d temp

/-- `Parse`, folding the flat key/value pairs in the order given by
`ord` (indices into the insertion-ordered flat map).  Go ranges over a
map, whose iteration order is unspecified; `Parse` above is the identity
permutation, and any permutation of the flat map's entries is a possible
run of the Go program. -/
def ParseOrd (d : Decoder) (input : List Char) (ord : List Nat) : Option QSVal :=
  if input.length = 0 then some (.obj [])
  else do
    let temp ← parseValues d input
    parseCore d (ord.filterMap fun i => temp.get? i)

/-- `Parse` on a Lean string literal. -/
def ParseQS (d : Decoder) (s : String) : Option QSVal := Parse d s.data

/-- `ParseOrd` on a Lean string literal. -/
def ParseOrdQS (d : Decoder) (s : String) (ord : List Nat) : Option QSVal :=
  ParseOrd d s.data ord

/-- `parseValues` on a Lean string literal. -/
def parseValuesQS (d : Decoder) (s : String) : Option (List (List Char × QSVal)) :=
  parseValues d s.data

/-! ### Supporting definitions and lemmas -/

/-- The value of the last fragment among `parts` whose key decodes to
`key` (later fragments take precedence). -/
def lastKV (d : Decoder) : List (List Char) → List Char → Option QSVal
  | [], _ => none
  | part :: rest, key =>
      match lastKV d rest key with
      | some v => some v
      | none =>
          match partKV d part with
          | some (k, v) => if k = key then some v else none
          | none => none

mutual

/-- No `Sequence` (slice) occurs anywhere in the value. -/
def arrFree : QSVal → Bool
  | .str _ => true
  | .bool _ => true
  | .null => true
  | .arr _ => false
  | .obj m => arrFreePairs m
termination_by structural v => v

/-- `arrFree` on every value of a map entry list. -/
def arrFreePairs : List (QSKey × QSVal) → Bool
  | [] => true
  | (_, v) :: rest => arrFree v && arrFreePairs rest
termination_by structural l => l

end

theorem assocGet_assocSet_self {α β : Type} [DecidableEq α]
    (m : List (α × β)) (k : α) (v : β) : assocGet (assocSet m k v) k = some v := by
  induction m with
  | nil => simp [assocSet, assocGet]
  | cons p rest ih =>
      obtain ⟨k1, v1⟩ := p
      by_cases h : k1 = k <;> simp [assocSet, assocGet, h, ih]

theorem assocGet_assocSet_ne {α β : Type} [DecidableEq α]
    (m : List (α × β)) (k k2 : α) (v : β) (h : k ≠ k2) :
    assocGet (assocSet m k v) k2 = assocGet m k2 := by
  induction m with
  | nil => simp [assocSet, assocGet, h]
  | cons p rest ih =>
      obtain ⟨k1, v1⟩ := p
      by_cases h1 : k1 = k
      · subst h1
        simp [assocSet, assocGet, h]
      · simp [assocSet, assocGet, h1, ih]

theorem indexOf_isSome_of_startsWith (s p : List Char) (h : startsWithL s p = true) :
    (indexOf s p).isSome := by
  unfold indexOf
  rw [if_pos h]
  rfl

theorem indexOf_isSome_of_cons (s : List Char) (c : Char) (p : List Char)
    (h : (indexOf s (c :: p)).isSome) : (indexOf s p).isSome := by
  induction s with
  | nil =>
      unfold indexOf at h
      simp [startsWithL] at h
  | cons d rest ih =>
      unfold indexOf at h
      by_cases h1 : startsWithL (d :: rest) (c :: p) = true
      · have h2 : startsWithL rest p = true := by
          simp only [startsWithL, Bool.and_eq_true] at h1
          exact h1.2
        unfold indexOf
        by_cases h3 : startsWithL (d :: rest) p = true
        · rw [if_pos h3]; rfl
        · rw [if_neg h3]
          have := indexOf_isSome_of_startsWith rest p h2
          simp [Option.isSome_map]
          exact this
      · rw [if_neg h1] at h
        have h2 : (Option.map (fun x => x + 1) (indexOf rest (c :: p))).isSome = true := h
        have h4 := ih (by
          cases hx : indexOf rest (c :: p) with
          | none => rw [hx] at h2; simp at h2
          | some j => simp [hx])
        unfold indexOf
        by_cases h3 : startsWithL (d :: rest) p = true
        · rw [if_pos h3]; rfl
        · rw [if_neg h3]
          simp [Option.isSome_map]
          exact h4

theorem partKV_isSome (d : Decoder) (part : List Char) : (partKV d part).isSome := by
  unfold partKV
  by_cases hc : containsSub part ('[' :: ']' :: ['=']) = true
  · have h1 : (indexOf part (']' :: ['='])).isSome := by
      have := indexOf_isSome_of_cons part '[' (']' :: ['=']) hc
      exact this
    obtain ⟨i, hi⟩ := Option.isSome_iff_exists.mp h1
    rw [hi]
    simp only [hc, if_true]
    by_cases hcm : (d.comma ∧ containsSub (decodeURI (part.drop (i + 1 + 1))) [','] = true)
    · rw [if_pos hcm]
      rfl
    · rw [if_neg hcm]
      rfl
  · have hc2 : containsSub part ('[' :: ']' :: ['=']) = false := by
      simpa using hc
    rw [hc2]
    cases hp : (match indexOf part (']' :: ['=']) with
        | some bracketEqualsPos => some (bracketEqualsPos + 1)
        | none => indexOf part ['=']) with
    | none => simp
    | some p => simp

theorem pvStep_overwrite (d : Decoder) (hne : d.duplicates ≠ "combine".data)
    (acc : List (List Char × QSVal)) (k : List Char) (v : QSVal) :
    pvStep d acc k v = some (assocSet acc k v) := by
  unfold pvStep
  cases hg : assocGet acc k with
  | none => rfl
  | some ev => simp [hne]

theorem lastKV_cons (d : Decoder) (part : List Char) (rest : List (List Char))
    (key : List Char) :
    lastKV d (part :: rest) key =
      (match lastKV d rest key with
       | some v => some v
       | none =>
           match partKV d part with
           | some (k, v) => if k = key then some v else none
           | none => none) := rfl

theorem pvLoop_last (d : Decoder) (hne : d.duplicates ≠ "combine".data) :
    ∀ (parts : List (List Char)) (acc : List (List Char × QSVal)),
      ∃ res, pvLoop d parts acc = some res ∧
        ∀ key, assocGet res key =
          (match lastKV d parts key with
           | some v => some v
           | none => assocGet acc key) := by
  intro parts
  induction parts with
  | nil =>
      intro acc
      exact ⟨acc, rfl, fun key => by simp [lastKV]⟩
  | cons part rest ih =>
      intro acc
      obtain ⟨⟨k, v⟩, hkv⟩ := Option.isSome_iff_exists.mp (partKV_isSome d part)
      have h1 : pvLoop d (part :: rest) acc =
          (partKV d part).bind fun kv =>
            (pvStep d acc kv.1 kv.2).bind fun result => pvLoop d rest result := rfl
      have hstep : pvLoop d (part :: rest) acc = pvLoop d rest (assocSet acc k v) := by
        rw [h1, hkv]
        show (pvStep d acc k v).bind (fun result => pvLoop d rest result) = _
        rw [pvStep_overwrite d hne acc k v]
        rfl
      obtain ⟨res, hres, hlook⟩ := ih (assocSet acc k v)
      refine ⟨res, by rw [hstep]; exact hres, ?_⟩
      intro key
      rw [hlook key, lastKV_cons]
      cases hlast : lastKV d rest key with
      | some w => simp
      | none =>
          simp only [hkv]
          by_cases hk : k = key
          · subst hk
            simp [assocGet_assocSet_self]
          · simp [hk, assocGet_assocSet_ne acc k key v hk]

theorem wrapSeg_noArrays_shape (d : Decoder) (root : List Char) (leaf r : QSVal)
    (hpa : d.parseArrays = false) (hw : wrapSeg d root leaf = some r) :
    ∃ kk : QSKey, r = .obj [(kk, leaf)] := by
  unfold wrapSeg at hw
  rw [if_neg (by simp [hpa])] at hw
  cases root with
  | nil => exact absurd hw (by simp)
  | cons c rest =>
      simp only at hw
      repeat' split at hw
      all_goals rw [Option.some.injEq] at hw
      all_goals exact ⟨_, hw.symm⟩

theorem arrFree_wrapSeg (d : Decoder) (root : List Char) (leaf r : QSVal)
    (hpa : d.parseArrays = false) (hw : wrapSeg d root leaf = some r)
    (hl : arrFree leaf = true) : arrFree r = true := by
  obtain ⟨kk, hk⟩ := wrapSeg_noArrays_shape d root leaf r hpa hw
  subst hk
  simp [arrFree, arrFreePairs, hl]

theorem arrFree_wrapAll (d : Decoder) (hpa : d.parseArrays = false) :
    ∀ (keys : List (List Char)) (leaf r : QSVal), arrFree leaf = true →
      wrapAll d keys leaf = some r → arrFree r = true := by
  intro keys
  induction keys with
  | nil =>
      intro leaf r hl hw
      unfold wrapAll at hw
      rw [Option.some.injEq] at hw
      subst hw
      exact hl
  | cons k rest ih =>
      intro leaf r hl hw
      have h1 : wrapAll d (k :: rest) leaf =
          (wrapAll d rest leaf).bind fun inner => wrapSeg d k inner := rfl
      rw [h1] at hw
      cases hin : wrapAll d rest leaf with
      | none => rw [hin] at hw; exact absurd hw (by simp)
      | some inner =>
          rw [hin] at hw
          exact arrFree_wrapSeg d k inner r hpa hw (ih leaf inner hl hin)

theorem arrFree_parseKeys (d : Decoder) (key : List Char) (val r : QSVal)
    (hpa : d.parseArrays = false) (hv : arrFree val = true)
    (hp : parseKeys d key val = some r) : arrFree r = true := by
  have h1 : parseKeys d key val =
      (wrapAll d (computeKeys d (if d.allowDots then dotToBracket key else key)) val).bind
        fun leaf =>
          match leaf with
          | .obj m => some (.obj m)
          | _ => none := rfl
  rw [h1] at hp
  cases hw : wrapAll d (computeKeys d (if d.allowDots then dotToBracket key else key)) val with
  | none => rw [hw] at hp; exact absurd hp (by simp)
  | some leaf =>
      rw [hw] at hp
      have hfree := arrFree_wrapAll d hpa _ val leaf hv hw
      match leaf, hp with
      | .obj m, hp =>
          have hp2 : some (QSVal.obj m) = some r := hp
          rw [Option.some.injEq] at hp2
          subst hp2
          exact hfree

theorem bracketTake_nil : ∀ n : Nat, bracketTake [] n = ([], []) := by
  intro n
  cases n with
  | zero => rfl
  | succ n => simp [bracketTake, findBracket]

theorem computeKeys_abracket (d : Decoder) (hd : 0 < d.depth) :
    computeKeys d ('a' :: '[' :: [']']) = [['a'], '[' :: [']']] := by
  have h0 : d.depth.toNat ≠ 0 := by
    rw [Ne, Int.toNat_eq_zero]
    omega
  obtain ⟨k, hk⟩ := Nat.exists_eq_succ_of_ne_zero h0
  unfold computeKeys
  rw [if_pos hd]
  rw [show findBracket ('a' :: '[' :: [']']) = some (['a'], '[' :: [']'], []) from rfl]
  simp only [hk, bracketTake,
    show findBracket ('a' :: '[' :: [']']) = some (['a'], '[' :: [']'], []) from rfl,
    bracketTake_nil]
  simp

theorem parseKeys_noArrays_abracket (d : Decoder) (hpa : d.parseArrays = false)
    (hd : 0 < d.depth) (val : QSVal) :
    parseKeys d ('a' :: '[' :: [']']) val =
      some (.obj [(.str ['a'], .obj [(.str ['0'], val)])]) := by
  have hkey : (if d.allowDots then dotToBracket ('a' :: '[' :: [']'])
      else ('a' :: '[' :: [']'])) = ('a' :: '[' :: [']']) := by
    cases h : d.allowDots
    · simp [h]
    · simp only [h, if_true]
      rfl
  have h1 : parseKeys d ('a' :: '[' :: [']']) val =
      (wrapAll d (computeKeys d (if d.allowDots then dotToBracket ('a' :: '[' :: [']'])
        else ('a' :: '[' :: [']']))) val).bind
        fun leaf =>
          match leaf with
          | QSVal.obj m => some (QSVal.obj m)
          | _ => none := rfl
  rw [h1, hkey, computeKeys_abracket d hd]
  have h2 : wrapAll d [['a'], '[' :: [']']] val =
      (wrapSeg d ('[' :: [']']) val).bind fun inner => wrapSeg d ['a'] inner := rfl
  have h3 : wrapSeg d ('[' :: [']']) val = some (.obj [(.str ['0'], val)]) := by
    unfold wrapSeg
    rw [if_neg (by simp [hpa])]
    cases hdd : d.decodeDotInKeys <;>
      simp [hdd, hpa, replaceAll, replaceAllGo]
  have h4 : wrapSeg d ['a'] (QSVal.obj [(.str ['0'], val)]) =
      some (.obj [(.str ['a'], .obj [(.str ['0'], val)])]) := by
    unfold wrapSeg
    rw [if_neg (by simp)]
    cases hdd : d.decodeDotInKeys <;>
      simp [hdd, hpa, replaceAll, replaceAllGo, startsWithL, atoi, digitsVal, digitsVal.go]
  rw [h2, h3]
  show wrapSeg d ['a'] (QSVal.obj [(.str ['0'], val)]) >>= _ = _
  rw [h4]
  rfl

/-! ### The claims -/

/-- Claim C1: the claim states that `Parse` never panics and always
returns a mapping, for every input and configuration.  This is false: on
the input `"=5"` the value splitter produces the empty key, and
`parseKeys` indexes `root[0]` on the empty root segment, an
index-out-of-range panic (modelled by `none`).  This theorem evaluates
the code at that failing input. -/
theorem c1_parse_panics_on_empty_key : ParseQS defaultDecoder "=5" = none := rfl

/-- Claim C2: with the default configuration (depth 5), decoding
`"a[b][c][d][e][f][g][h]=i"` yields nesting exactly 5 bracket levels
below the root key `"a"` (keys `b..f`), with the unconsumed remainder
`"[g][h]"` as a single literal string key holding `"i"`. -/
theorem c2_depth_boundary :
    ParseQS defaultDecoder "a[b][c][d][e][f][g][h]=i" =
      some (.obj [(kstr "a", .obj [(kstr "b", .obj [(kstr "c", .obj [(kstr "d",
        .obj [(kstr "e", .obj [(kstr "f", .obj [(kstr "[g][h]", qstr "i")])])])])])])]) := rfl

/-- Claim C3: the claim states that with comma mode the split decision is
made on the raw still-encoded value, so `"foo=a%2Cb"` stays the scalar
`"a,b"` and `"foo=a%2Cb,c"` yields `["a,b","c"]`.  This is false: the
code tests the already-decoded value for commas and splits it, so
`"foo=a%2Cb"` becomes `["a","b"]` and `"foo=a%2Cb,c"` becomes
`["a","b","c"]` (the repo's own test `TestFix3_PreEncodedCommaHandling`
and README "Known Differences #3" record the intended behaviour).  This
theorem evaluates the code on the claim's three inputs. -/
theorem c3_comma_splits_preencoded_comma :
    ParseQS commaDecoder "foo=a%2Cb" =
      some (.obj [(kstr "foo", .arr [qstr "a", qstr "b"])]) ∧
    ParseQS commaDecoder "foo=a,b" =
      some (.obj [(kstr "foo", .arr [qstr "a", qstr "b"])]) ∧
    ParseQS commaDecoder "foo=a%2Cb,c" =
      some (.obj [(kstr "foo", .arr [qstr "a", qstr "b", qstr "c"])]) :=
  ⟨rfl, rfl, rfl⟩

/-- Claim C4: the claim states that empty fragments are skipped, so
`"a=1&"` decodes to exactly `{a: "1"}`.  This is false: `parseValues`
has no empty-fragment skip and stores an entry under the empty key, and
`Parse` then panics in `parseKeys` on the empty root segment (the repo's
own test `TestFix1_EmptyKeyHandling` records the intended behaviour).
This theorem evaluates both facts on the failing input. -/
theorem c4_empty_fragment_not_skipped :
    parseValuesQS defaultDecoder "a=1&" = some [("a".data, qstr "1"), ("".data, qstr "")] ∧
    ParseQS defaultDecoder "a=1&" = none :=
  ⟨rfl, rfl⟩

/-- Claim C5: with `arrayLimit = 20`, decoding `"a[20]=x"` yields an
`int`-keyed mapping entry `20`, while `"a[21]=x"` yields the string key
`"21"`; neither produces a sequence for `"a"`. -/
theorem c5_array_limit_boundary :
    ParseQS defaultDecoder "a[20]=x" =
      some (.obj [(kstr "a", .obj [(kint 20, qstr "x")])]) ∧
    ParseQS defaultDecoder "a[21]=x" =
      some (.obj [(kstr "a", .obj [(kstr "21", qstr "x")])]) :=
  ⟨rfl, rfl⟩

/-- Claim C6 (counterexample): the claim states that under the
`"first"` duplicates policy only the first occurrence is kept; decoding
`"a=1&a=2"` with that policy in fact keeps `"2"`, the last occurrence,
not `"1"`. -/
theorem c6_first_policy_counterexample :
    parseValuesQS firstDecoder "a=1&a=2" = some [("a".data, qstr "2")] ∧
    parseValuesQS firstDecoder "a=1&a=2" ≠ some [("a".data, qstr "1")] := by
  refine ⟨rfl, ?_⟩
  intro h
  rw [show parseValuesQS firstDecoder "a=1&a=2" = some [("a".data, qstr "2")] from rfl] at h
  simp [qstr] at h

/-- Claim C6 (amended): under any duplicates policy other than
`"combine"` (in particular `"first"`), for every input the split result
holds, for each flat key, the value of the key's *last* occurrence among
the fragments; earlier occurrences are overwritten. -/
theorem c6_duplicates_first_keeps_last (d : Decoder) (str : List Char)
    (parts : List (List Char)) (key : List Char)
    (hne : d.duplicates ≠ "combine".data) (hp : getParts d str = some parts) :
    ∃ res, parseValues d str = some res ∧ assocGet res key = lastKV d parts key := by
  obtain ⟨res, hres, hlook⟩ := pvLoop_last d hne parts []
  refine ⟨res, ?_, ?_⟩
  · have h1 : parseValues d str = (getParts d str).bind fun parts => pvLoop d parts [] := rfl
    rw [h1, hp]
    exact hres
  · rw [hlook key]
    cases lastKV d parts key <;> simp [assocGet]

/-- Witness for the amended claim C6 at the concrete input
`"a=1&a=2"` under the `"first"` policy. -/
theorem c6_duplicates_first_keeps_last_witness :
    ∃ res, parseValues firstDecoder "a=1&a=2".data = some res ∧
      assocGet res "a".data = lastKV firstDecoder ["a=1".data, "a=2".data] "a".data :=
  c6_duplicates_first_keeps_last firstDecoder "a=1&a=2".data ["a=1".data, "a=2".data]
    "a".data (by decide) (by rfl)

/-- Claim C7: when `parseArrays` is disabled, an empty-bracket segment
wraps the leaf in a mapping under the string key `"0"` (shown for the key
`"a[]"`, for any depth `> 0`), and the key-path parser never produces a
sequence: if the leaf value contains no sequence, neither does the
parsed result. -/
theorem c7_parse_arrays_off (d : Decoder) (hpa : d.parseArrays = false) :
    (∀ val : QSVal, 0 < d.depth →
        parseKeys d ('a' :: '[' :: [']']) val =
          some (.obj [(.str ['a'], .obj [(.str ['0'], val)])])) ∧
    (∀ (key : List Char) (val r : QSVal), arrFree val = true →
        parseKeys d key val = some r → arrFree r = true) :=
  ⟨fun val hd => parseKeys_noArrays_abracket d hpa hd val,
   fun key val r hv hp => arrFree_parseKeys d key val r hpa hv hp⟩

/-- Witness for claim C7 at the default configuration with `parseArrays`
disabled, on the key `"a[]"` and leaf `"v"`. -/
theorem c7_parse_arrays_off_witness :
    parseKeys noArraysDecoder ('a' :: '[' :: [']']) (qstr "v") =
      some (.obj [(.str ['a'], .obj [(.str ['0'], qstr "v")])]) ∧
    arrFree (.obj [(.str ['a'], .obj [(.str ['0'], qstr "v")])]) = true := by
  have h := c7_parse_arrays_off noArraysDecoder (by decide)
  exact ⟨h.1 (qstr "v") (by decide),
    h.2 ('a' :: '[' :: [']']) (qstr "v") _ (by decide) (h.1 (qstr "v") (by decide))⟩

/-- Claim C8: the claim states that the array-recognition pass is applied
recursively to every sub-value, so every integer-keyed contiguous mapping
at any depth becomes a sequence.  This is false: `Parse` applies
`objToArray` only to the direct values of the root mapping, so decoding
`"a[b][0]=x&a[b][1]=y"` leaves the inner mapping `{0: "x", 1: "y"}` (two
`int` keys) as a mapping instead of the sequence `["x","y"]`.  This
theorem evaluates the code at that failing input. -/
theorem c8_objToArray_not_recursive :
    ParseQS defaultDecoder "a[b][0]=x&a[b][1]=y" =
      some (.obj [(kstr "a", .obj [(kstr "b",
        .obj [(kint 0, qstr "x"), (kint 1, qstr "y")])])]) := rfl

/-- Claim C9: the claim states that decoding is deterministic and in
particular independent of the iteration order in which the parsed
key-paths are folded.  This is false: `Parse` ranges over a Go map whose
iteration order is unspecified, and for `"a=x&a[b]=c"` the two orders of
the same two entries produce structurally different results (a
two-element sequence versus a mapping with an inserted `true`). -/
theorem c9_result_depends_on_fold_order :
    ParseOrdQS defaultDecoder "a=x&a[b]=c" [0, 1] =
      some (.obj [(kstr "a", .arr [qstr "x", .obj [(kstr "b", qstr "c")]])]) ∧
    ParseOrdQS defaultDecoder "a=x&a[b]=c" [1, 0] =
      some (.obj [(kstr "a", .obj [(kstr "b", qstr "c"), (kstr "x", .bool true)])]) ∧
    ParseOrdQS defaultDecoder "a=x&a[b]=c" [0, 1] ≠
      ParseOrdQS defaultDecoder "a=x&a[b]=c" [1, 0] := by
  refine ⟨rfl, rfl, ?_⟩
  intro h
  rw [show ParseOrdQS defaultDecoder "a=x&a[b]=c" [0, 1] =
      some (.obj [(kstr "a", .arr [qstr "x", .obj [(kstr "b", qstr "c")]])]) from rfl,
    show ParseOrdQS defaultDecoder "a=x&a[b]=c" [1, 0] =
      some (.obj [(kstr "a", .obj [(kstr "b", qstr "c"), (kstr "x", .bool true)])]) from rfl] at h
  simp at h

/-- Claim C10: merging a scalar (string or boolean — non-mapping,
non-sequence, non-nil) addition into a mapping accumulator inserts the
scalar as a key with value `true` when absent and leaves the mapping
unchanged otherwise, preserving all pre-existing entries; in particular
`merge {b: "c"} "d" = {b: "c", d: true}`. -/
theorem c10_merge_scalar_into_mapping (m : List (QSKey × QSVal)) (x : List Char) (b : Bool) :
    merge (.obj m) (.str x) =
      some (.obj (if (assocGet m (QSKey.str x)).isSome then m
                  else m ++ [(QSKey.str x, .bool true)])) ∧
    merge (.obj m) (.bool b) =
      some (.obj (if (assocGet m (QSKey.bool b)).isSome then m
                  else m ++ [(QSKey.bool b, .bool true)])) ∧
    merge (.obj [(kstr "b", qstr "c")]) (qstr "d") =
      some (.obj [(kstr "b", qstr "c"), (kstr "d", .bool true)]) :=
  ⟨rfl, rfl, rfl⟩

end Goqs
